import Mathlib

/-!
Verification development for the Celia agent console (job lifecycle,
log-streaming and dual-mode execution core).

The definitions below are a shallow embedding of the TypeScript source:

* `Json`, `memberAccess`, `jsDisplay` … — a model of the JavaScript values
  that `JSON.parse` can produce and of the property accesses / template
  literals the simulation engine performs on them.
* `simulateAgentExecution` — `src/services/geminiService.ts`, function
  `simulateAgentExecution`.  The asynchronous run is modelled as the finite
  list of callback events it fires (`onLog` / `onComplete`), in order; the
  per-step `await` delays do not change that order, so they are not
  modelled.  The outcome of the model call plus `JSON.parse` of its text is
  the explicit input `ModelOutcome`.
* `formattedLogs` — `JobView`'s `formattedLogs` memo (log formatter).
* `AppState`, `fetchJobsList`, `handleCreateJob`, `handleDeleteJob`,
  `applyLogPatch`, `applyCompletePatch` — `src/App.tsx`.  React state is
  explicit state passing; each remote request actually issued is recorded
  in an `ApiCall` list.  `created_at` is modelled as the numeric epoch
  value `new Date(created_at).getTime()` of the stored timestamp string,
  which is the only way the code consumes it.
-/

namespace Celia

/-! ## JavaScript value model (results of `JSON.parse`) -/

/-- A JavaScript value as produced by `JSON.parse`: `null`, booleans,
numbers, strings, arrays and plain objects.  Numbers are modelled as
integers (the engine never does arithmetic on them).  Object fields are the
parsed object's own properties, duplicates already resolved by the
parser. -/
inductive Json where
  | null
  | bool (b : Bool)
  | num (n : Int)
  | str (s : String)
  | arr (elems : List Json)
  | obj (fields : List (String × Json))
deriving Repr

/-- Property access `v.k`.  `none` models a thrown `TypeError` (access on
`null`); `some none` models the value `undefined`; `some (some w)` a real
value. -/
def memberAccess : Json → String → Option (Option Json)
  | .null, _ => none
  | .obj fields, k => some ((fields.find? (fun f => f.1 == k)).map (·.2))
  | _, _ => some none

mutual
/-- JavaScript string conversion, as performed by a template literal
`${v}` on a non-`undefined` value. -/
def jsDisplay : Json → String
  | .null => "null"
  | .bool b => cond b "true" "false"
  | .num n => toString n
  | .str s => s
  | .obj _ => "[object Object]"
  | .arr xs => jsDisplayList xs

/-- Model of `Array.prototype.toString`: elements joined by commas, `null` elements
rendered as the empty string. -/
def jsDisplayList : List Json → String
  | [] => ""
  | [Json.null] => ""
  | [e] => jsDisplay e
  | Json.null :: rest => "," ++ jsDisplayList rest
  | e :: rest => jsDisplay e ++ "," ++ jsDisplayList rest
end

/-- Rendering of `${v.k}` inside a template literal: `undefined` renders as the string
"undefined".  Only used on receivers that are not `null`. -/
def fieldDisplay (e : Json) (k : String) : String :=
  match memberAccess e k with
  | some (some v) => jsDisplay v
  | _ => "undefined"

/-- The raw value of property `k` (used for `step.type`, which the code
forwards unchecked by `step.type as any`). -/
def fieldValue (e : Json) (k : String) : Option Json :=
  match memberAccess e k with
  | some x => x
  | none => none

/-! ## Simulation engine (`src/services/geminiService.ts`) -/

/-- A log entry as emitted by the engine's `onLogUpdate` callback.  The
`type` field is forwarded from the model response without validation
(`step.type as any`), so it is a raw JavaScript value, possibly
`undefined` (`none`). -/
structure SimLogEntry where
  timestamp : String
  message : String
  rawType : Option Json
deriving Repr

/-- One callback event of a simulation run: an `onLogUpdate` call or an
`onCompletion` call.  `onCompletion` receives `result.files` raw, which can
be `undefined`. -/
inductive SimEvent where
  | log (e : SimLogEntry)
  | complete (files : Option Json)
deriving Repr

/-- Combined outcome of the model call and of `JSON.parse(response.text ||
fallback)`: either some exception was thrown before a result value existed
(model call rejected, or the text was not valid JSON), carrying the
exception's message, or parsing produced the value `v`. -/
inductive ModelOutcome where
  | fail (reason : String)
  | parsed (v : Json)

/-- The initial `[SYSTEM]` entry emitted before the model call. -/
def sysEntry (ts : String) : SimLogEntry :=
  ⟨ts, "[SYSTEM] تعذر الاتصال بـ API الخلفي. الانتقال إلى نمط المحاكاة المحلية المستقلة...",
    some (.str "process")⟩

/-- The `[BRAIN]` entry emitted right after a successful parse. -/
def brainEntry (ts : String) : SimLogEntry :=
  ⟨ts, "[BRAIN] جارِ تفعيل الروابط العصبية لمحاكاة المهمة ذهنياً...", some (.str "brain")⟩

/-- Message of the catch-block entry: the failure reason prefixed by the
fixed Arabic text. -/
def failMsg (reason : String) : String :=
  "فشل المحاكاة المحلية: " ++ reason

/-- The entry emitted by the catch block. -/
def catchEntry (ts reason : String) : SimLogEntry :=
  ⟨ts, failMsg reason, some (.str "error")⟩

/-- The log entry synthesized for one step of the parsed plan:
`${step.thought} -> ${step.action}` tagged with `step.type`.  `none` models
the `TypeError` thrown when the step is `null` (first hit by the
`step.type` access in the delay computation). -/
def stepEntry (ts : String) (e : Json) : Option SimLogEntry :=
  match e with
  | .null => none
  | _ => some ⟨ts, fieldDisplay e "thought" ++ " -> " ++ fieldDisplay e "action",
      fieldValue e "type"⟩

/-- Model of `for (const step of result.steps)`: evaluates `result.steps` and asks
for an iterator.  `none` models a thrown `TypeError` (receiver `null`,
property missing / not iterable); arrays iterate their elements, strings
iterate their characters. -/
def stepsAccess (v : Json) : Option (List Json) :=
  match memberAccess v "steps" with
  | none => none
  | some none => none
  | some (some (.arr xs)) => some xs
  | some (some (.str s)) => some (s.data.map fun c => Json.str (String.mk [c]))
  | some (some _) => none

/-- The value `result.files`, evaluated only after the step loop (so the receiver is
known not to be `null`). -/
def filesAccess (v : Json) : Option Json :=
  match memberAccess v "files" with
  | some x => x
  | none => none

/-- Runs the step loop: the entries emitted, and whether the loop finished
without throwing (`false` when a `null` step raised a `TypeError`). -/
def stepEvents (ts : String) : List Json → List SimLogEntry × Bool
  | [] => ([], true)
  | e :: rest =>
    match stepEntry ts e with
    | none => ([], false)
    | some entry =>
      let p := stepEvents ts rest
      (entry :: p.1, p.2)

/-- Model of `simulateAgentExecution`, as the ordered list of callback events of one
run.  `ts` stands for the wall-clock display time (`toLocaleTimeString`),
`tyMsg` for the runtime-defined message of a `TypeError` thrown while
iterating the steps.  The catch block absorbs every failure into one
`error` log entry; nothing is rethrown to the caller. -/
def simulateAgentExecution (ts tyMsg : String) (outcome : ModelOutcome) : List SimEvent :=
  SimEvent.log (sysEntry ts) ::
    match outcome with
    | .fail reason => [SimEvent.log (catchEntry ts reason)]
    | .parsed v =>
      SimEvent.log (brainEntry ts) ::
        match stepsAccess v with
        | none => [SimEvent.log (catchEntry ts tyMsg)]
        | some steps =>
          let p := stepEvents ts steps
          p.1.map SimEvent.log ++
            (if p.2 then [SimEvent.complete (filesAccess v)]
             else [SimEvent.log (catchEntry ts tyMsg)])

/-- Is this event an `onLog` call with an `error`-typed entry? -/
def isErrorEv : SimEvent → Bool
  | .log e =>
    match e.rawType with
    | some (.str s) => s == "error"
    | _ => false
  | _ => false

/-- Is this event an `onComplete` call? -/
def isCompleteEv : SimEvent → Bool
  | .complete _ => true
  | _ => false

/-! ## Log formatter (`JobView`'s `formattedLogs`, src/unnamed/part_001)

The regex `^\[(.*?)\]\s*(.*)$` is modelled character-exactly: `.` matches
everything except a line terminator, `\s*` is greedy, the first group is
lazy (shortest match wins, with backtracking past a `]` whose tail fails).
-/

/-- Line terminators, which `.` does not match in a JavaScript regex. -/
def isLineTerm (c : Char) : Bool :=
  c = '\n' || c = '\r' || c = '\u2028' || c = '\u2029'

/-- JavaScript whitespace (`\s`, also the class trimmed by
`String.prototype.trim`).  The rarely-used Unicode `Zs` spaces beyond
NO-BREAK SPACE are omitted from the model. -/
def isJsWs (c : Char) : Bool :=
  c = ' ' || c = '\t' || c = '\x0b' || c = '\x0c' || c = '\u00A0' ||
    c = '\uFEFF' || isLineTerm c

/-- Model of `String.prototype.trim`. -/
def jsTrim (s : String) : String :=
  String.mk (((s.data.dropWhile isJsWs).reverse.dropWhile isJsWs).reverse)

/-- Given the text after a candidate closing `]`, the rest of the pattern
`\s*(.*)$`: greedily skip whitespace; the match succeeds iff no line
terminator remains, and then group 2 is everything left. -/
def tailCand (r : List Char) : Option (List Char) :=
  let t := r.dropWhile isJsWs
  if t.any isLineTerm then none else some t

/-- Lazy search for the two capture groups in the text following the
leading `[`.  `minOne = true` demands a non-empty group 1 (the pattern
`\[(.+?)\]`); `false` allows it empty (the source's `\[(.*?)\]`).  The
shortest viable group 1 wins; a `]` whose tail fails the rest of the
pattern is swallowed into group 1 and the search continues. -/
def scanGroups (minOne : Bool) : List Char → Option (List Char × List Char)
  | [] => none
  | c :: rest =>
    let ext := if isLineTerm c then none
      else (scanGroups false rest).map fun p => (c :: p.1, p.2)
    if c = ']' ∧ minOne = false then
      match tailCand rest with
      | some g2 => some ([], g2)
      | none => ext
    else ext

/-- Model of `line.match` against the whole anchored pattern: requires a leading
`[`, then the two groups. -/
def matchLine (minOne : Bool) (line : String) : Option (String × String) :=
  match line.data with
  | c :: rest =>
    if c = '[' then (scanGroups minOne rest).map fun p => (String.mk p.1, String.mk p.2)
    else none
  | [] => none

/-- Does `pat` occur at the very front of `s`? -/
def leadsWith : List Char → List Char → Bool
  | [], _ => true
  | _ :: _, [] => false
  | p :: ps, c :: cs => p == c && leadsWith ps cs

/-- Does `pat` occur anywhere in `s`? -/
def hasSub (pat : List Char) : List Char → Bool
  | [] => pat.isEmpty
  | c :: rest => leadsWith pat (c :: rest) || hasSub pat rest

/-- Model of `String.prototype.includes`. -/
def jsIncludes (s pat : String) : Bool := hasSub pat.data s.data

/-- Model of `tsMatch[1].includes('T') ? tsMatch[1].split('T')[1].split('.')[0] :
tsMatch[1]`. -/
def tsTransform (s : String) : String :=
  if jsIncludes s "T" then (((s.splitOn "T").getD 1 "").splitOn ".").headD ""
  else s

/-- Model of `String.prototype.toLowerCase` (ASCII case mapping). -/
def lowerStr (s : String) : String := String.mk (s.data.map Char.toLower)

/-- The formatter's marker classification, exactly the source's
`if`/`else if` chain over the (possibly stripped) message. -/
def classifyType (m : String) : String :=
  if jsIncludes m "[ERROR]" || jsIncludes (lowerStr m) "failed" then "error"
  else if jsIncludes m "[SUCCESS]" || jsIncludes (lowerStr m) "completed" then "success"
  else if jsIncludes m "[GIT]" then "git"
  else if jsIncludes m "[BRAIN]" then "brain"
  else if jsIncludes m "[PLAN]" || jsIncludes m "[STEP" then "plan"
  else if jsIncludes m "[SYSTEM]" || jsIncludes m "[CMD]" then "process"
  else "info"

/-- A display log entry of the formatter. -/
structure LogEntry where
  timestamp : String
  message : String
  type : String
deriving Repr, DecidableEq

/-- One line of the formatter's `map` body: timestamp/message extraction
followed by classification of the resulting message. -/
def parseLine (line : String) : LogEntry :=
  match matchLine false line with
  | some (g1, g2) => ⟨tsTransform g1, g2, classifyType g2⟩
  | none => ⟨"", line, classifyType line⟩

/-- The memo `formattedLogs`: split on newlines, drop blank lines, format each. -/
def formattedLogs (logs : String) : List LogEntry :=
  ((logs.splitOn "\n").filter (fun l => jsTrim l ≠ "")).map parseLine

/-! ### Declarative reading of the pattern

`LineCand minOne cs g1 tail` says that splitting the line `cs` as
`[` + `g1` + `]` + `tail` is a viable regex match: group 1 respects the
`+`/`*` arity and contains no line terminator, and the tail survives
`\s*(.*)$`.  `specMatches` adds the laziness of group 1 (no strictly
shorter viable split) and computes group 2 from the greedy `\s*`. -/
def LineCand (minOne : Bool) (cs g1 tail : List Char) : Prop :=
  cs = '[' :: (g1 ++ ']' :: tail) ∧ (minOne = true → g1 ≠ []) ∧
    (∀ c ∈ g1, isLineTerm c = false) ∧ tailCand tail ≠ none

/-- The pattern, read declaratively, matches `cs` with groups `g1` and
`tail.dropWhile isJsWs` when `LineCand` holds and no shorter group 1
works. -/
def specMatches (minOne : Bool) (cs g1 tail : List Char) : Prop :=
  LineCand minOne cs g1 tail ∧
    ∀ g1' tail', LineCand minOne cs g1' tail' → g1.length ≤ g1'.length

/-- The per-line extraction claim, parameterized by the group-1 arity of
the pattern (`true` for the claim's `\[(.+?)\]`, `false` for the source's
`\[(.*?)\]`): a line the pattern matches yields group 1 (transformed by
`tsTransform`) as `timestamp` and group 2 as `message`; a line it does not
match yields an empty `timestamp` and the whole line as `message`. -/
def FormatterLineClaim (minOne : Bool) (line : String) : Prop :=
  (∀ g1 tail, specMatches minOne line.data g1 tail →
    parseLine line = ⟨tsTransform (String.mk g1), String.mk (tail.dropWhile isJsWs),
      classifyType (String.mk (tail.dropWhile isJsWs))⟩) ∧
  ((∀ g1 tail, ¬ LineCand minOne line.data g1 tail) →
    parseLine line = ⟨"", line, classifyType line⟩)

/-! ## Job store and orchestrator (`src/App.tsx`) -/

/-- A produced artifact. -/
structure JobFile where
  name : String
  path : String
  size : Option String
deriving Repr, DecidableEq

/-- A job record.  `created_at` is modelled as the numeric value
`new Date(created_at).getTime()` of the stored timestamp, the only form in
which the code consumes it (for the reconciler's sort). -/
structure Job where
  id : String
  task : String
  persona : Option String
  use_search : Option Bool
  repo_url : Option String
  status : String
  created_at : Int
  logs : String
  files : List JobFile
  is_simulation : Bool
deriving Repr, DecidableEq

/-- The orchestrator's React state. -/
structure AppState where
  jobs : List Job
  activeJobId : Option String
  isBackendOnline : Bool
deriving Repr, DecidableEq

/-- A Remote Job Client request actually issued by an orchestrator
action. -/
inductive ApiCall where
  | listJobs
  | createJob (task : String) (repo : Option String)
  | deleteJob (id : String)
deriving Repr, DecidableEq

/-- Stable insertion of a job into a list sorted by `created_at`
descending: the new job goes after every existing job with a greater or
equal timestamp. -/
def insertDesc (j : Job) : List Job → List Job
  | [] => [j]
  | a :: rest => if a.created_at < j.created_at then j :: a :: rest
      else a :: insertDesc j rest

/-- Model of `merged.sort((a, b) => dateVal b - dateVal a)`: the stable sort by
`created_at` descending, written as insertion sort (extensionally the
unique stable result of the comparator). -/
def sortJobs : List Job → List Job
  | [] => []
  | j :: rest => insertDesc j (sortJobs rest)

/-- One iteration of `simulationJobs.forEach`: push the simulation job
unless some already-merged job has its id. -/
def addSim (acc : List Job) (sim : Job) : List Job :=
  if acc.any (fun m => m.id == sim.id) then acc else acc ++ [sim]

/-- The reconciliation merge inside `fetchJobsList`'s `setJobs`: server
jobs (tagged `is_simulation := false`) first, then any simulation job of
the previous state whose id is not yet present, then the descending sort
by `created_at`. -/
def mergeJobs (prev data : List Job) : List Job :=
  sortJobs (((prev.filter (·.is_simulation)).foldl addSim
    (data.map fun j => { j with is_simulation := false })))

/-- Model of `fetchJobsList`: the poll body.  `outcome` is the settled result of
`apiService.listJobs()`; the `catch` absorbs the failure (the function is
total), setting the offline flag and leaving the rest of the state
untouched. -/
def fetchJobsList (outcome : Except Unit (List Job)) (s : AppState) : AppState :=
  match outcome with
  | .error _ => { s with isBackendOnline := false }
  | .ok data => { s with isBackendOnline := true, jobs := mergeJobs s.jobs data }

/-- The initial log line of a locally created simulation job. -/
def fallbackLogLine (nowStr : String) : String :=
  "[" ++ nowStr ++ "] [SYSTEM] المحرك الخلفي غير متصل. بدء المحاكاة المحلية المستقلة...\n"

/-- The `newJob` literal of `handleCreateJob`'s catch block. -/
def newSimJob (task : String) (repo persona : Option String) (useSearch : Option Bool)
    (mockId : String) (now : Int) (nowStr : String) : Job :=
  { id := mockId, task := task, persona := persona, use_search := useSearch,
    repo_url := repo, status := "running", created_at := now,
    logs := fallbackLogLine nowStr, files := [], is_simulation := true }

/-- The catch block of `handleCreateJob`: prepend the fresh simulation job
and make it active.  (The engine run it also starts is modelled separately
by `simulateAgentExecution` and the two patch functions below.) -/
def simCreateFallback (task : String) (repo persona : Option String)
    (useSearch : Option Bool) (mockId : String) (now : Int) (nowStr : String)
    (s : AppState) : AppState :=
  { s with
    jobs := newSimJob task repo persona useSearch mockId now nowStr :: s.jobs,
    activeJobId := some mockId }

/-- Model of `handleCreateJob`.  `createOutcome` is the settled result of
`apiService.createJob`, `fetchOutcome` that of the follow-up
`fetchJobsList` on success; `mockId` is the generated `sim-` id, `now` /
`nowStr` the creation clock readings.  Returns the new state together with
the Remote Job Client calls issued: when the online flag is false the code
throws before any request, so none is issued. -/
def handleCreateJob (task : String) (repo persona : Option String)
    (useSearch : Option Bool) (createOutcome : Except Unit String)
    (fetchOutcome : Except Unit (List Job)) (mockId : String) (now : Int)
    (nowStr : String) (s : AppState) : AppState × List ApiCall :=
  if s.isBackendOnline then
    match createOutcome with
    | .ok jobId =>
      let s1 := fetchJobsList fetchOutcome s
      ({ s1 with activeJobId := some jobId },
        [ApiCall.createJob task repo, ApiCall.listJobs])
    | .error _ =>
      (simCreateFallback task repo persona useSearch mockId now nowStr s,
        [ApiCall.createJob task repo])
  else
    (simCreateFallback task repo persona useSearch mockId now nowStr s, [])

/-- Model of `handleDeleteJob`: after the `confirm` dialog (`confirmed`), filter the
job out of the store and clear the active selection if it pointed at the
deleted id.  No Remote Job Client request is issued. -/
def handleDeleteJob (confirmed : Bool) (id : String) (s : AppState) :
    AppState × List ApiCall :=
  if confirmed then
    ({ s with
        jobs := s.jobs.filter (fun j => j.id ≠ id),
        activeJobId := if s.activeJobId = some id then none else s.activeJobId }, [])
  else (s, [])

/-- The `onLog` callback `handleCreateJob` wires into a simulation run:
append one formatted line to the logs of the job with the captured id. -/
def applyLogPatch (mockId : String) (e : SimLogEntry) (jobs : List Job) : List Job :=
  jobs.map fun j =>
    if j.id = mockId then
      { j with logs := j.logs ++ ("[" ++ e.timestamp ++ "] " ++ e.message ++ "\n") }
    else j

/-- The `onComplete` callback: mark the job with the captured id completed
and store its files. -/
def applyCompletePatch (mockId : String) (files : List JobFile) (jobs : List Job) :
    List Job :=
  jobs.map fun j =>
    if j.id = mockId then { j with status := "completed", files := files } else j

/-- The job list is ordered by creation timestamp descending. -/
def sortedByCreatedDesc (l : List Job) : Prop :=
  l.Pairwise fun a b => b.created_at ≤ a.created_at

/-- The spec's classification table: ordered marker rules, first match
wins, default `info`. -/
def classifyRules : List ((String → Bool) × String) :=
  [ (fun m => jsIncludes m "[ERROR]" || jsIncludes (lowerStr m) "failed", "error"),
    (fun m => jsIncludes m "[SUCCESS]" || jsIncludes (lowerStr m) "completed", "success"),
    (fun m => jsIncludes m "[GIT]", "git"),
    (fun m => jsIncludes m "[BRAIN]", "brain"),
    (fun m => jsIncludes m "[PLAN]" || jsIncludes m "[STEP", "plan"),
    (fun m => jsIncludes m "[SYSTEM]" || jsIncludes m "[CMD]", "process") ]

/-- Classification as the spec words it: scan the rule table in order and
take the first rule whose condition holds, else `info`. -/
def specClassify (m : String) : String :=
  match classifyRules.find? (fun r => r.1 m) with
  | some r => r.2
  | none => "info"

/-- A job literal used in concrete instantiations. -/
def mkJob (i : String) (t : Int) (sim : Bool) : Job :=
  { id := i, task := "t", persona := none, use_search := none, repo_url := none,
    status := "running", created_at := t, logs := "", files := [], is_simulation := sim }

/-! ## Lemmas about the sort and the merge -/

theorem mem_insertDesc {x j : Job} {l : List Job} :
    x ∈ insertDesc j l ↔ x = j ∨ x ∈ l := by
  induction l with
  | nil => simp [insertDesc]
  | cons a rest ih =>
    simp only [insertDesc]
    split
    · simp
    · simp [ih]; tauto

theorem mem_sortJobs {x : Job} {l : List Job} : x ∈ sortJobs l ↔ x ∈ l := by
  induction l with
  | nil => simp [sortJobs]
  | cons a rest ih => simp [sortJobs, mem_insertDesc, ih]

theorem sorted_insertDesc {j : Job} {l : List Job} (h : sortedByCreatedDesc l) :
    sortedByCreatedDesc (insertDesc j l) := by
  induction l with
  | nil => simp [insertDesc, sortedByCreatedDesc]
  | cons a rest ih =>
    simp only [insertDesc]
    rw [sortedByCreatedDesc, List.pairwise_cons] at h
    split
    · rename_i hlt
      rw [sortedByCreatedDesc, List.pairwise_cons]
      refine ⟨?_, List.pairwise_cons.mpr ⟨h.1, h.2⟩⟩
      intro b hb
      rcases List.mem_cons.mp hb with rfl | hb
      · omega
      · exact le_trans (h.1 b hb) (by omega)
    · rename_i hge
      rw [sortedByCreatedDesc, List.pairwise_cons]
      refine ⟨?_, ih h.2⟩
      intro b hb
      rcases mem_insertDesc.mp hb with rfl | hb
      · omega
      · exact h.1 b hb

theorem sorted_sortJobs (l : List Job) : sortedByCreatedDesc (sortJobs l) := by
  induction l with
  | nil => exact List.Pairwise.nil
  | cons a rest ih => exact sorted_insertDesc ih

theorem mem_foldl_addSim_of_mem_acc {x : Job} :
    ∀ (l acc : List Job), x ∈ acc → x ∈ l.foldl addSim acc := by
  intro l
  induction l with
  | nil => intro acc h; simpa using h
  | cons s rest ih =>
    intro acc h
    refine ih (addSim acc s) ?_
    unfold addSim
    split
    · exact h
    · exact List.mem_append_left _ h

theorem mem_foldl_addSim {x : Job} :
    ∀ (l acc : List Job), x ∈ l →
      ∃ k ∈ l.foldl addSim acc, k.id = x.id ∧ (k ∈ acc ∨ k ∈ l) := by
  intro l
  induction l with
  | nil => intro acc h; simp at h
  | cons s rest ih =>
    intro acc h
    rcases List.mem_cons.mp h with hx | hx
    · subst hx
      by_cases hany : acc.any (fun m => m.id == x.id)
      · rcases List.any_eq_true.mp hany with ⟨m, hm, hid⟩
        refine ⟨m, ?_, by simpa using hid, Or.inl hm⟩
        have hmem : m ∈ addSim acc x := by unfold addSim; rw [if_pos hany]; exact hm
        exact mem_foldl_addSim_of_mem_acc rest _ hmem
      · refine ⟨x, ?_, rfl, Or.inr (List.mem_cons_self x rest)⟩
        have hmem : x ∈ addSim acc x := by
          unfold addSim; rw [if_neg hany]; exact List.mem_append_right _ (by simp)
        exact mem_foldl_addSim_of_mem_acc rest _ hmem
    · rcases ih (addSim acc s) hx with ⟨k, hk, hid, hor⟩
      refine ⟨k, hk, hid, ?_⟩
      rcases hor with hacc | hl
      · unfold addSim at hacc
        split at hacc
        · exact Or.inl hacc
        · rcases List.mem_append.mp hacc with h1 | h2
          · exact Or.inl h1
          · simp only [List.mem_singleton] at h2
            exact Or.inr (by simp [h2])
      · exact Or.inr (List.mem_cons_of_mem _ hl)

theorem api_mem_mergeJobs {d : Job} {prev data : List Job} (hd : d ∈ data) :
    { d with is_simulation := false } ∈ mergeJobs prev data := by
  unfold mergeJobs
  rw [mem_sortJobs]
  exact mem_foldl_addSim_of_mem_acc _ _ (List.mem_map_of_mem _ hd)

theorem sim_mem_mergeJobs {sim : Job} {prev data : List Job}
    (hmem : sim ∈ prev) (hsim : sim.is_simulation = true)
    (hid : ∀ d ∈ data, d.id ≠ sim.id) :
    ∃ k ∈ mergeJobs prev data, k.id = sim.id ∧ k.is_simulation = true := by
  have hsimlist : sim ∈ prev.filter (·.is_simulation) :=
    List.mem_filter.mpr ⟨hmem, by simpa using hsim⟩
  rcases mem_foldl_addSim (x := sim) (prev.filter (·.is_simulation))
      (data.map fun j => { j with is_simulation := false }) hsimlist with ⟨k, hk, hkid, hor⟩
  refine ⟨k, by unfold mergeJobs; rw [mem_sortJobs]; exact hk, hkid, ?_⟩
  rcases hor with hapi | hsiml
  · rcases List.mem_map.mp hapi with ⟨d, hdmem, hdeq⟩
    have : d.id = k.id := by rw [← hdeq]
    exact absurd (this.trans hkid) (hid d hdmem)
  · exact (List.mem_filter.mp hsiml).2

/-! ## Lemmas about the simulation engine's step loop -/

theorem stepEntry_ne_none (ts : String) {e : Json} (h : e ≠ Json.null) :
    stepEntry ts e ≠ none := by
  cases e <;> simp [stepEntry] at h ⊢

theorem stepEvents_all_ok {ts : String} :
    ∀ {steps : List Json}, (∀ e ∈ steps, e ≠ Json.null) →
      stepEvents ts steps = (steps.filterMap (stepEntry ts), true) := by
  intro steps
  induction steps with
  | nil => intro _; rfl
  | cons e rest ih =>
    intro h
    have he : e ≠ Json.null := h e (List.mem_cons_self _ _)
    rcases Option.ne_none_iff_exists'.mp (stepEntry_ne_none ts he) with ⟨en, hen⟩
    simp only [stepEvents, hen, List.filterMap_cons,
      ih (fun x hx => h x (List.mem_cons_of_mem _ hx))]

theorem stepEvents_length {ts : String} {steps : List Json}
    (h : ∀ e ∈ steps, e ≠ Json.null) :
    (steps.filterMap (stepEntry ts)).length = steps.length := by
  induction steps with
  | nil => rfl
  | cons e rest ih =>
    have he : e ≠ Json.null := h e (List.mem_cons_self _ _)
    rcases Option.ne_none_iff_exists'.mp (stepEntry_ne_none ts he) with ⟨en, hen⟩
    simp [List.filterMap_cons, hen,
      ih (fun x hx => h x (List.mem_cons_of_mem _ hx))]

theorem stepEvents_break {ts : String} :
    ∀ {pre post : List Json}, (∀ e ∈ pre, e ≠ Json.null) →
      stepEvents ts (pre ++ Json.null :: post) = (pre.filterMap (stepEntry ts), false) := by
  intro pre
  induction pre with
  | nil => intro _ _; rfl
  | cons e rest ih =>
    intro post h
    have he : e ≠ Json.null := h e (List.mem_cons_self _ _)
    rcases Option.ne_none_iff_exists'.mp (stepEntry_ne_none ts he) with ⟨en, hen⟩
    simp only [List.cons_append, stepEvents, hen, List.filterMap_cons, List.append_eq,
      ih (fun x hx => h x (List.mem_cons_of_mem _ hx))]

/-- Mapping a function that fixes every element of a list is the
identity. -/
theorem map_id_of_noop {α : Type} (f : α → α) :
    ∀ l : List α, (∀ x ∈ l, f x = x) → l.map f = l := by
  intro l
  induction l with
  | nil => intro _; rfl
  | cons a rest ih =>
    intro h
    simp only [List.map_cons, h a (List.mem_cons_self _ _),
      ih (fun x hx => h x (List.mem_cons_of_mem _ hx))]

/-- Log events alone never contain an `onComplete` call. -/
theorem countP_complete_map_log (l : List SimLogEntry) :
    (l.map SimEvent.log).countP isCompleteEv = 0 := by
  induction l with
  | nil => rfl
  | cons a rest ih => simp [List.countP_cons, isCompleteEv, ih]

/-! ## Lemmas about the regex scanner -/

/-- Inversion of the extension step of `scanGroups`: a successful extended
match starts with the current character and continues with a match of the
rest under no arity constraint. -/
theorem scan_ext_inv {c : Char} {r g1 g2 : List Char}
    (h : (if isLineTerm c then none
          else (scanGroups false r).map fun p => (c :: p.1, p.2)) = some (g1, g2)) :
    isLineTerm c = false ∧ ∃ p1 p2, scanGroups false r = some (p1, p2) ∧
      g1 = c :: p1 ∧ g2 = p2 := by
  by_cases ht : isLineTerm c
  · rw [if_pos ht] at h
    exact absurd h (by simp)
  · rw [if_neg ht] at h
    cases hp : scanGroups false r with
    | none => rw [hp] at h; simp at h
    | some p =>
      rw [hp] at h
      simp only [Option.map_some'] at h
      have h1 : c :: p.1 = g1 := congrArg Prod.fst (Option.some.inj h)
      have h2 : p.2 = g2 := congrArg Prod.snd (Option.some.inj h)
      exact ⟨by simpa using ht, p.1, p.2, rfl, h1.symm, h2.symm⟩

/-- Soundness of the scanner: a successful scan decomposes its input as
group 1, a closing bracket and a tail accepted by `\s*(.*)$`, with group 1
non-empty when required and free of line terminators. -/
theorem scan_sound :
    ∀ (rest : List Char) {minOne : Bool} {g1 g2 : List Char},
      scanGroups minOne rest = some (g1, g2) →
      ∃ tail, rest = g1 ++ ']' :: tail ∧ (minOne = true → g1 ≠ []) ∧
        (∀ c ∈ g1, isLineTerm c = false) ∧ tailCand tail = some g2 := by
  intro rest
  induction rest with
  | nil => intro _ _ _ h; simp [scanGroups] at h
  | cons c r ih =>
    intro minOne g1 g2 h
    simp only [scanGroups] at h
    by_cases hc : c = ']' ∧ minOne = false
    · rw [if_pos hc] at h
      cases htc : tailCand r with
      | some g2' =>
        rw [htc] at h
        have h1 : ([] : List Char) = g1 := congrArg Prod.fst (Option.some.inj h)
        have h2 : g2' = g2 := congrArg Prod.snd (Option.some.inj h)
        refine ⟨r, ?_, ?_, ?_, ?_⟩
        · rw [← h1, hc.1]; rfl
        · intro hmo; rw [hmo] at hc; exact absurd hc.2 (by simp)
        · rw [← h1]; intro x hx; exact absurd hx (List.not_mem_nil x)
        · rw [htc, h2]
      | none =>
        rw [htc] at h
        rcases scan_ext_inv h with ⟨hterm, p1, p2, hp, hg1, hg2⟩
        rcases ih hp with ⟨tail, heq, -, htermp, htc2⟩
        refine ⟨tail, ?_, ?_, ?_, ?_⟩
        · rw [hg1, heq]; rfl
        · intro _; rw [hg1]; exact List.cons_ne_nil c p1
        · intro x hx
          rw [hg1] at hx
          rcases List.mem_cons.mp hx with rfl | hx
          · exact hterm
          · exact htermp x hx
        · rw [← hg2] at htc2; exact htc2
    · rw [if_neg hc] at h
      rcases scan_ext_inv h with ⟨hterm, p1, p2, hp, hg1, hg2⟩
      rcases ih hp with ⟨tail, heq, -, htermp, htc2⟩
      refine ⟨tail, ?_, ?_, ?_, ?_⟩
      · rw [hg1, heq]; rfl
      · intro _; rw [hg1]; exact List.cons_ne_nil c p1
      · intro x hx
        rw [hg1] at hx
        rcases List.mem_cons.mp hx with rfl | hx
        · exact hterm
        · exact htermp x hx
      · rw [← hg2] at htc2; exact htc2

/-- Completeness of the scanner: whenever some viable decomposition
exists, the scan succeeds. -/
theorem scan_complete :
    ∀ (g1 : List Char) {minOne : Bool} {rest tail : List Char},
      rest = g1 ++ ']' :: tail → (minOne = true → g1 ≠ []) →
      (∀ c ∈ g1, isLineTerm c = false) → tailCand tail ≠ none →
      scanGroups minOne rest ≠ none := by
  intro g1
  induction g1 with
  | nil =>
    intro minOne rest tail heq hmin _ htc
    cases minOne with
    | true => exact absurd rfl (hmin rfl)
    | false =>
      subst heq
      cases htcv : tailCand tail with
      | none => exact absurd htcv htc
      | some g2 => simp [scanGroups, htcv]
  | cons d g1' ih =>
    intro minOne rest tail heq hmin hterm htc
    subst heq
    have hd : isLineTerm d = false := hterm d (List.mem_cons_self _ _)
    have hrec : scanGroups false (g1' ++ ']' :: tail) ≠ none :=
      ih rfl (by simp) (fun x hx => hterm x (List.mem_cons_of_mem _ hx)) htc
    rcases Option.ne_none_iff_exists'.mp hrec with ⟨p, hp⟩
    have hext : (if isLineTerm d then none
        else (scanGroups false (g1' ++ ']' :: tail)).map fun p => (d :: p.1, p.2))
        = some (d :: p.1, p.2) := by
      rw [if_neg (by simp [hd]), hp]; rfl
    simp only [List.cons_append, scanGroups, List.append_eq]
    by_cases hc : d = ']' ∧ minOne = false
    · rw [if_pos hc]
      cases htcv : tailCand (g1' ++ ']' :: tail) with
      | some g2 => simp
      | none => rw [hext]; simp
    · rw [if_neg hc, hext]; simp

/-- Minimality (laziness) of the scanner: the returned group 1 is no
longer than that of any viable decomposition. -/
theorem scan_min :
    ∀ (rest : List Char) {minOne : Bool} {g1 g2 : List Char},
      scanGroups minOne rest = some (g1, g2) →
      ∀ g1' tail', rest = g1' ++ ']' :: tail' → (minOne = true → g1' ≠ []) →
        (∀ c ∈ g1', isLineTerm c = false) → tailCand tail' ≠ none →
        g1.length ≤ g1'.length := by
  intro rest
  induction rest with
  | nil => intro _ _ _ h; simp [scanGroups] at h
  | cons c r ih =>
    intro minOne g1 g2 h g1' tail' heq hmin hterm htc
    simp only [scanGroups] at h
    by_cases hc : c = ']' ∧ minOne = false
    · rw [if_pos hc] at h
      cases htcr : tailCand r with
      | some g2' =>
        rw [htcr] at h
        have h1 : ([] : List Char) = g1 := congrArg Prod.fst (Option.some.inj h)
        rw [← h1]
        exact Nat.zero_le _
      | none =>
        rw [htcr] at h
        rcases scan_ext_inv h with ⟨-, p1, p2, hp, hg1, -⟩
        cases g1' with
        | nil =>
          simp only [List.nil_append] at heq
          have : r = tail' := (List.cons.inj heq).2
          rw [this] at htcr
          exact absurd htcr htc
        | cons d g1'' =>
          rw [List.cons_append] at heq
          have hde := List.cons.inj heq
          have hrec : p1.length ≤ g1''.length :=
            ih hp g1'' tail' hde.2 (by simp)
              (fun x hx => hterm x (List.mem_cons_of_mem _ hx)) htc
          rw [hg1]
          simpa using Nat.succ_le_succ hrec
    · rw [if_neg hc] at h
      rcases scan_ext_inv h with ⟨-, p1, p2, hp, hg1, -⟩
      cases g1' with
      | nil =>
        simp only [List.nil_append] at heq
        have hcbr : c = ']' := (List.cons.inj heq).1
        have hmo : minOne = false := by
          cases minOne with
          | false => rfl
          | true => exact absurd rfl (hmin rfl)
        exact absurd ⟨hcbr, hmo⟩ hc
      | cons d g1'' =>
        rw [List.cons_append] at heq
        have hde := List.cons.inj heq
        have hrec : p1.length ≤ g1''.length :=
          ih hp g1'' tail' hde.2 (by simp)
            (fun x hx => hterm x (List.mem_cons_of_mem _ hx)) htc
        rw [hg1]
        simpa using Nat.succ_le_succ hrec

/-! ## Claims -/

/-- C1: the reconciliation merge keeps every simulation job of the
previous store whose id is absent from the server list (a job with that id
and `is_simulation = true` is still present), and every server job is
present in the merged result. -/
theorem upsertMany_preserves_unmatched_simulations
    (prev data : List Job) (sim : Job)
    (hmem : sim ∈ prev) (hsim : sim.is_simulation = true)
    (hid : ∀ d ∈ data, d.id ≠ sim.id) :
    (∃ k ∈ mergeJobs prev data, k.id = sim.id ∧ k.is_simulation = true) ∧
      ∀ d ∈ data, { d with is_simulation := false } ∈ mergeJobs prev data :=
  ⟨sim_mem_mergeJobs hmem hsim hid, fun _ hd => api_mem_mergeJobs hd⟩

/-- Witness for C1 at a concrete store and server list. -/
theorem upsertMany_preserves_unmatched_simulations_witness :
    ((mkJob "sim-1" 5 true ∈ [mkJob "sim-1" 5 true]) ∧
      (mkJob "sim-1" 5 true).is_simulation = true ∧
      ∀ d ∈ [mkJob "srv" 7 false], d.id ≠ (mkJob "sim-1" 5 true).id) ∧
    (∃ k ∈ mergeJobs [mkJob "sim-1" 5 true] [mkJob "srv" 7 false],
        k.id = (mkJob "sim-1" 5 true).id ∧ k.is_simulation = true) ∧
      ∀ d ∈ [mkJob "srv" 7 false],
        { d with is_simulation := false } ∈
          mergeJobs [mkJob "sim-1" 5 true] [mkJob "srv" 7 false] :=
  ⟨⟨by decide, by decide, by decide⟩,
    upsertMany_preserves_unmatched_simulations [mkJob "sim-1" 5 true]
      [mkJob "srv" 7 false] (mkJob "sim-1" 5 true) (by decide) (by decide) (by decide)⟩

/-- C2: a simulation run whose parsed response carries a `steps` list (all
steps proper values) and a `files` list fires exactly one `onLog` per step,
in step order, and then exactly one `onComplete` carrying that `files`
list, strictly after every `onLog` and with nothing after it. -/
theorem simulation_success_event_order
    (ts tyMsg : String) (v : Json) (steps files : List Json)
    (hsteps : memberAccess v "steps" = some (some (Json.arr steps)))
    (hfiles : memberAccess v "files" = some (some (Json.arr files)))
    (hok : ∀ e ∈ steps, e ≠ Json.null) :
    simulateAgentExecution ts tyMsg (.parsed v) =
        SimEvent.log (sysEntry ts) :: SimEvent.log (brainEntry ts) ::
          ((steps.filterMap (stepEntry ts)).map SimEvent.log ++
            [SimEvent.complete (some (Json.arr files))]) ∧
      (steps.filterMap (stepEntry ts)).length = steps.length ∧
      (simulateAgentExecution ts tyMsg (.parsed v)).countP isCompleteEv = 1 ∧
      (simulateAgentExecution ts tyMsg (.parsed v)).getLast? =
        some (SimEvent.complete (some (Json.arr files))) := by
  have hsa : stepsAccess v = some steps := by
    unfold stepsAccess; rw [hsteps]
  have hfa : filesAccess v = some (Json.arr files) := by
    unfold filesAccess; rw [hfiles]
  have htr : simulateAgentExecution ts tyMsg (.parsed v) =
      SimEvent.log (sysEntry ts) :: SimEvent.log (brainEntry ts) ::
        ((steps.filterMap (stepEntry ts)).map SimEvent.log ++
          [SimEvent.complete (some (Json.arr files))]) := by
    simp only [simulateAgentExecution, hsa, stepEvents_all_ok hok, hfa, if_true]
  refine ⟨htr, stepEvents_length hok, ?_, ?_⟩
  · rw [htr]
    simp [List.countP_cons, List.countP_append, countP_complete_map_log, isCompleteEv]
  · rw [htr, show SimEvent.log (sysEntry ts) :: SimEvent.log (brainEntry ts) ::
        ((steps.filterMap (stepEntry ts)).map SimEvent.log ++
          [SimEvent.complete (some (Json.arr files))]) =
        (SimEvent.log (sysEntry ts) :: SimEvent.log (brainEntry ts) ::
          (steps.filterMap (stepEntry ts)).map SimEvent.log) ++
          [SimEvent.complete (some (Json.arr files))] by simp]
    exact List.getLast?_concat _

/-- Witness for C2: one proper step and one file. -/
theorem simulation_success_event_order_witness :
    (memberAccess (Json.obj [("steps", Json.arr [Json.obj []]),
        ("files", Json.arr [Json.str "f"])]) "steps" =
      some (some (Json.arr [Json.obj []])) ∧
      memberAccess (Json.obj [("steps", Json.arr [Json.obj []]),
        ("files", Json.arr [Json.str "f"])]) "files" =
      some (some (Json.arr [Json.str "f"]))) ∧
    (simulateAgentExecution "t" "e"
        (.parsed (Json.obj [("steps", Json.arr [Json.obj []]),
          ("files", Json.arr [Json.str "f"])]))).countP isCompleteEv = 1 :=
  ⟨⟨rfl, rfl⟩,
    (simulation_success_event_order "t" "e"
      (Json.obj [("steps", Json.arr [Json.obj []]), ("files", Json.arr [Json.str "f"])])
      [Json.obj []] [Json.str "f"] rfl rfl
      (by intro e he; simp only [List.mem_singleton] at he; subst he
          exact fun h => Json.noConfusion h)).2.2.1⟩

/-- C3 counterexample: the model output `{"steps": []}` is valid JSON but
not the required schema (no `files` list: the access yields `undefined`);
the engine nevertheless emits no `error`-typed entry at all and calls
`onComplete` (with `undefined`), contradicting the claim that every
non-schema response yields one error entry and no completion. -/
theorem sim_missing_files_counterexample :
    memberAccess (Json.obj [("steps", Json.arr [])]) "files" = some none ∧
    (simulateAgentExecution "t" "e"
      (.parsed (Json.obj [("steps", Json.arr [])]))).countP isErrorEv = 0 ∧
    (simulateAgentExecution "t" "e"
      (.parsed (Json.obj [("steps", Json.arr [])]))).countP isCompleteEv = 1 :=
  ⟨rfl, rfl, rfl⟩

/-- C3 amended: when the model call rejects or its text is not valid JSON,
or when the parsed value has no iterable `steps`, or when a `null` step
aborts the loop, the run emits one `error`-typed failure entry carrying
the failure reason and never calls `onComplete`; only a parsed response
that merely lacks the `files` list escapes detection (see the
counterexample) and completes with the undefined value. -/
theorem sim_failure_absorbed (ts tyMsg reason : String) (v : Json) :
    (simulateAgentExecution ts tyMsg (.fail reason) =
        [SimEvent.log (sysEntry ts), SimEvent.log (catchEntry ts reason)] ∧
      (simulateAgentExecution ts tyMsg (.fail reason)).countP isErrorEv = 1 ∧
      (simulateAgentExecution ts tyMsg (.fail reason)).countP isCompleteEv = 0) ∧
    (stepsAccess v = none →
      simulateAgentExecution ts tyMsg (.parsed v) =
          [SimEvent.log (sysEntry ts), SimEvent.log (brainEntry ts),
            SimEvent.log (catchEntry ts tyMsg)] ∧
        (simulateAgentExecution ts tyMsg (.parsed v)).countP isErrorEv = 1 ∧
        (simulateAgentExecution ts tyMsg (.parsed v)).countP isCompleteEv = 0) ∧
    (∀ pre post, stepsAccess v = some (pre ++ Json.null :: post) →
      (∀ e ∈ pre, e ≠ Json.null) →
      (simulateAgentExecution ts tyMsg (.parsed v)).countP isCompleteEv = 0 ∧
      (simulateAgentExecution ts tyMsg (.parsed v)).getLast? =
        some (SimEvent.log (catchEntry ts tyMsg))) := by
  refine ⟨⟨rfl, by simp [simulateAgentExecution, List.countP_cons, isErrorEv,
      sysEntry, catchEntry], by simp [simulateAgentExecution, List.countP_cons,
      isCompleteEv]⟩, ?_, ?_⟩
  · intro hna
    have htr : simulateAgentExecution ts tyMsg (.parsed v) =
        [SimEvent.log (sysEntry ts), SimEvent.log (brainEntry ts),
          SimEvent.log (catchEntry ts tyMsg)] := by
      simp only [simulateAgentExecution, hna]
    refine ⟨htr, ?_, ?_⟩ <;>
      simp [htr, List.countP_cons, isErrorEv, isCompleteEv, sysEntry, brainEntry, catchEntry]
  · intro pre post hsa hpre
    have htr : simulateAgentExecution ts tyMsg (.parsed v) =
        SimEvent.log (sysEntry ts) :: SimEvent.log (brainEntry ts) ::
          ((pre.filterMap (stepEntry ts)).map SimEvent.log ++
            [SimEvent.log (catchEntry ts tyMsg)]) := by
      simp only [simulateAgentExecution, hsa, stepEvents_break hpre, if_false,
        Bool.false_eq_true]
    constructor
    · rw [htr]
      simp [List.countP_cons, List.countP_append, countP_complete_map_log, isCompleteEv]
    · rw [htr, show SimEvent.log (sysEntry ts) :: SimEvent.log (brainEntry ts) ::
          ((pre.filterMap (stepEntry ts)).map SimEvent.log ++
            [SimEvent.log (catchEntry ts tyMsg)]) =
          (SimEvent.log (sysEntry ts) :: SimEvent.log (brainEntry ts) ::
            (pre.filterMap (stepEntry ts)).map SimEvent.log) ++
            [SimEvent.log (catchEntry ts tyMsg)] by simp]
      exact List.getLast?_concat _

/-- Witness for C3 amended: a transport failure, a parsed value with
non-iterable `steps`, and a run aborted by a `null` step. -/
theorem sim_failure_absorbed_witness :
    (simulateAgentExecution "t" "e" (.fail "boom")).countP isCompleteEv = 0 ∧
    (stepsAccess (Json.obj [("steps", Json.num 3)]) = none ∧
      (simulateAgentExecution "t" "e"
        (.parsed (Json.obj [("steps", Json.num 3)]))).countP isErrorEv = 1) ∧
    (stepsAccess (Json.obj [("steps", Json.arr [Json.null])]) =
        some ([] ++ Json.null :: []) ∧
      (simulateAgentExecution "t" "e"
        (.parsed (Json.obj [("steps", Json.arr [Json.null])]))).countP isCompleteEv = 0) :=
  ⟨(sim_failure_absorbed "t" "e" "boom" Json.null).1.2.2,
    ⟨rfl,
      ((sim_failure_absorbed "t" "e" "boom"
        (Json.obj [("steps", Json.num 3)])).2.1 rfl).2.1⟩,
    ⟨rfl,
      (((sim_failure_absorbed "t" "e" "boom"
        (Json.obj [("steps", Json.arr [Json.null])])).2.2 [] [] rfl
          (by intro e he; exact absurd he (List.not_mem_nil e))).1)⟩⟩

/-- C4: creating a job while the backend-online flag is false issues no
Remote Job Client call at all and prepends a fresh job with
`is_simulation = true`, status `running`, the fallback log line and no
files, which becomes the active job. -/
theorem create_offline_is_local_simulation
    (task : String) (repo persona : Option String) (useSearch : Option Bool)
    (co : Except Unit String) (fo : Except Unit (List Job))
    (mockId : String) (now : Int) (nowStr : String) (s : AppState)
    (hoff : s.isBackendOnline = false) :
    (handleCreateJob task repo persona useSearch co fo mockId now nowStr s).2 = [] ∧
    ∃ j, (handleCreateJob task repo persona useSearch co fo mockId now nowStr s).1.jobs
          = j :: s.jobs ∧
      j.id = mockId ∧ j.is_simulation = true ∧ j.status = "running" ∧
      j.logs = fallbackLogLine nowStr ∧ j.files = [] ∧
      (handleCreateJob task repo persona useSearch co fo mockId now nowStr
        s).1.activeJobId = some mockId := by
  have heq : handleCreateJob task repo persona useSearch co fo mockId now nowStr s
      = (simCreateFallback task repo persona useSearch mockId now nowStr s, []) := by
    simp [handleCreateJob, hoff]
  rw [heq]
  exact ⟨rfl, newSimJob task repo persona useSearch mockId now nowStr,
    rfl, rfl, rfl, rfl, rfl, rfl, rfl⟩

/-- Witness for C4 at a concrete offline state. -/
theorem create_offline_is_local_simulation_witness :
    (AppState.mk [] none false).isBackendOnline = false ∧
    (handleCreateJob "t" none none none (.ok "j1") (.ok []) "sim-1" 3 "now"
      (AppState.mk [] none false)).2 = [] ∧
    ∃ j, (handleCreateJob "t" none none none (.ok "j1") (.ok []) "sim-1" 3 "now"
          (AppState.mk [] none false)).1.jobs = j :: (AppState.mk [] none false).jobs ∧
      j.id = "sim-1" ∧ j.is_simulation = true ∧ j.status = "running" ∧
      j.logs = fallbackLogLine "now" ∧ j.files = [] ∧
      (handleCreateJob "t" none none none (.ok "j1") (.ok []) "sim-1" 3 "now"
        (AppState.mk [] none false)).1.activeJobId = some "sim-1" :=
  ⟨rfl, create_offline_is_local_simulation "t" none none none (.ok "j1") (.ok [])
    "sim-1" 3 "now" (AppState.mk [] none false) rfl⟩

/-- C7: a failed poll sets the online flag to false and leaves the store
(and the active selection) untouched; a successful poll sets the flag to
true.  The failure is absorbed inside `fetchJobsList` (the function is
total), so it never propagates. -/
theorem poll_failure_preserves_store (s : AppState) (data : List Job) :
    (fetchJobsList (Except.error ()) s).isBackendOnline = false ∧
    (fetchJobsList (Except.error ()) s).jobs = s.jobs ∧
    (fetchJobsList (Except.error ()) s).activeJobId = s.activeJobId ∧
    (fetchJobsList (Except.ok data) s).isBackendOnline = true :=
  ⟨rfl, rfl, rfl, rfl⟩

/-- C8: deletion removes the job with the given id from the store
unconditionally (keeping all others), clears the active selection if it
pointed at it, and any later simulation callback whose captured id is
absent from the store leaves the store exactly unchanged. -/
theorem delete_removes_and_late_callbacks_noop
    (id : String) (s : AppState) (cid : String) (e : SimLogEntry)
    (files : List JobFile) (jobs : List Job) :
    (∀ j ∈ (handleDeleteJob true id s).1.jobs, j.id ≠ id) ∧
    (∀ j ∈ s.jobs, j.id ≠ id → j ∈ (handleDeleteJob true id s).1.jobs) ∧
    (s.activeJobId = some id → (handleDeleteJob true id s).1.activeJobId = none) ∧
    ((∀ j ∈ jobs, j.id ≠ cid) →
      applyLogPatch cid e jobs = jobs ∧ applyCompletePatch cid files jobs = jobs) := by
  refine ⟨?_, ?_, ?_, ?_⟩
  · intro j hj
    simp only [handleDeleteJob, if_true] at hj
    exact of_decide_eq_true (List.mem_filter.mp hj).2
  · intro j hj hne
    simp only [handleDeleteJob, if_true]
    exact List.mem_filter.mpr ⟨hj, decide_eq_true hne⟩
  · intro hact
    simp [handleDeleteJob, hact]
  · intro habsent
    constructor
    · exact map_id_of_noop _ jobs fun j hj => if_neg (habsent j hj)
    · exact map_id_of_noop _ jobs fun j hj => if_neg (habsent j hj)

/-- Witness for C8 at a concrete store: delete `a`, then a late callback
for `a` is a no-op on the remaining store. -/
theorem delete_removes_and_late_callbacks_noop_witness :
    ((AppState.mk [mkJob "a" 1 true, mkJob "b" 2 false] (some "a") true).activeJobId
        = some "a") ∧
    (∀ j ∈ (handleDeleteJob true "a"
        (AppState.mk [mkJob "a" 1 true, mkJob "b" 2 false] (some "a") true)).1.jobs,
      j.id ≠ "a") ∧
    (handleDeleteJob true "a"
      (AppState.mk [mkJob "a" 1 true, mkJob "b" 2 false] (some "a") true)).1.activeJobId
      = none ∧
    applyLogPatch "a" ⟨"t", "m", none⟩ [mkJob "b" 2 false] = [mkJob "b" 2 false] := by
  have h := delete_removes_and_late_callbacks_noop "a"
    (AppState.mk [mkJob "a" 1 true, mkJob "b" 2 false] (some "a") true)
    "a" ⟨"t", "m", none⟩ [] [mkJob "b" 2 false]
  exact ⟨rfl, h.1, h.2.2.1 rfl, (h.2.2.2 (by decide)).1⟩

/-- C10 (implicit): `handleDeleteJob` never issues any Remote Job Client
request (in particular no `delete`), touches nothing but the job list and
the active selection, and a deleted server job that the next successful
poll still returns reappears in the store. -/
theorem delete_is_local_only
    (confirmed : Bool) (id : String) (s : AppState) (data : List Job) (d : Job) :
    (handleDeleteJob confirmed id s).2 = [] ∧
    (handleDeleteJob true id s).1.isBackendOnline = s.isBackendOnline ∧
    (d ∈ data →
      ∃ k ∈ (fetchJobsList (Except.ok data) (handleDeleteJob true id s).1).jobs,
        k.id = d.id ∧ k.is_simulation = false) := by
  refine ⟨?_, rfl, ?_⟩
  · cases confirmed <;> rfl
  · intro hd
    refine ⟨{ d with is_simulation := false }, ?_, rfl, rfl⟩
    simp only [fetchJobsList]
    exact api_mem_mergeJobs hd

/-- When the online flag is false, or the remote create rejected, the
creation lands in the catch block's simulation fallback. -/
theorem createJob_fallback {task : String} {repo persona : Option String}
    {useSearch : Option Bool} {co : Except Unit String} {fo : Except Unit (List Job)}
    {mockId : String} {now : Int} {nowStr : String} {s : AppState}
    (hfb : s.isBackendOnline = false ∨ co = Except.error ()) :
    (handleCreateJob task repo persona useSearch co fo mockId now nowStr s).1
      = simCreateFallback task repo persona useSearch mockId now nowStr s := by
  rcases hfb with h | h
  · simp [handleCreateJob, h]
  · subst h
    by_cases hon : s.isBackendOnline <;> simp [handleCreateJob, hon]

/-- C9 counterexample: starting from an empty store, a successful poll
returns a server job with timestamp 100; a subsequent creation falls back
to local simulation at local time 50 and prepends — the resulting store is
not ordered by `created_at` descending, refuting the claimed invariant for
the prepend insertion path. -/
theorem jobs_order_counterexample :
    ¬ sortedByCreatedDesc ((handleCreateJob "t2" none none none (Except.error ())
        (Except.error ()) "sim-x" 50 "ts"
        (fetchJobsList (Except.ok [mkJob "a" 100 false])
          (AppState.mk [] none true))).1.jobs) := by
  intro h
  have h' : sortedByCreatedDesc
      (newSimJob "t2" none none none "sim-x" 50 "ts" :: [mkJob "a" 100 false]) := h
  rcases List.pairwise_cons.mp h' with ⟨hle, -⟩
  have hcontra := hle (mkJob "a" 100 false) (List.mem_singleton.mpr rfl)
  simp only [mkJob, newSimJob] at hcontra
  exact absurd hcontra (by decide)

/-- C9 amended: the reconciliation merge always yields a store sorted by
`created_at` descending; the local-creation path prepends the new job, so
it keeps the store sorted exactly when the new job's timestamp is at least
every stored one, and it never changes the relative order of the existing
jobs. -/
theorem jobs_order_amended
    (prev data : List Job) (task : String) (repo persona : Option String)
    (useSearch : Option Bool) (co : Except Unit String) (fo : Except Unit (List Job))
    (mockId : String) (now : Int) (nowStr : String) (s : AppState)
    (hfb : s.isBackendOnline = false ∨ co = Except.error ()) :
    sortedByCreatedDesc (mergeJobs prev data) ∧
    (sortedByCreatedDesc s.jobs → (∀ j ∈ s.jobs, j.created_at ≤ now) →
      sortedByCreatedDesc
        (handleCreateJob task repo persona useSearch co fo mockId now nowStr s).1.jobs) ∧
    (handleCreateJob task repo persona useSearch co fo mockId now nowStr s).1.jobs
      = newSimJob task repo persona useSearch mockId now nowStr :: s.jobs := by
  refine ⟨?_, ?_, ?_⟩
  · unfold mergeJobs
    exact sorted_sortJobs _
  · intro hs hle
    rw [createJob_fallback hfb]
    refine List.pairwise_cons.mpr ⟨?_, hs⟩
    intro b hb
    simpa [newSimJob] using hle b hb
  · rw [createJob_fallback hfb]
    rfl

/-- Witness for C9 amended at a concrete offline state whose clock is
ahead of every stored job. -/
theorem jobs_order_amended_witness :
    ((AppState.mk [mkJob "b" 2 false] none false).isBackendOnline = false ∧
      sortedByCreatedDesc (AppState.mk [mkJob "b" 2 false] none false).jobs ∧
      ∀ j ∈ (AppState.mk [mkJob "b" 2 false] none false).jobs, j.created_at ≤ 5) ∧
    sortedByCreatedDesc (mergeJobs [mkJob "b" 2 false] [mkJob "a" 9 false]) ∧
    sortedByCreatedDesc ((handleCreateJob "t" none none none (Except.ok "x")
      (Except.ok []) "sim-1" 5 "now" (AppState.mk [mkJob "b" 2 false] none false)).1.jobs) := by
  have hs : sortedByCreatedDesc (AppState.mk [mkJob "b" 2 false] none false).jobs := by
    simp [sortedByCreatedDesc]
  have h := jobs_order_amended [mkJob "b" 2 false] [mkJob "a" 9 false] "t" none none
    none (Except.ok "x") (Except.ok []) "sim-1" 5 "now"
    (AppState.mk [mkJob "b" 2 false] none false) (Or.inl rfl)
  exact ⟨⟨rfl, hs, by decide⟩, h.1, h.2.1 hs (by decide)⟩

/-- C6: the formatter's classification equals the first-match-wins scan of
the spec's ordered rule table; in particular a message containing both
`[ERROR]` and `[SUCCESS]` classifies as `error`. -/
theorem classify_priority_order (m : String) :
    classifyType m = specClassify m ∧
    (jsIncludes m "[ERROR]" = true → jsIncludes m "[SUCCESS]" = true →
      classifyType m = "error") := by
  constructor
  · unfold classifyType specClassify classifyRules
    cases hE : (jsIncludes m "[ERROR]" || jsIncludes (lowerStr m) "failed") <;>
    cases hS : (jsIncludes m "[SUCCESS]" || jsIncludes (lowerStr m) "completed") <;>
    cases hG : jsIncludes m "[GIT]" <;>
    cases hB : jsIncludes m "[BRAIN]" <;>
    cases hP : (jsIncludes m "[PLAN]" || jsIncludes m "[STEP") <;>
    cases hY : (jsIncludes m "[SYSTEM]" || jsIncludes m "[CMD]") <;>
    simp [List.find?, hE, hS, hG, hB, hP, hY]
  · intro h1 _
    simp [classifyType, h1]

/-- Witness for C6 at a message carrying both markers. -/
theorem classify_priority_order_witness :
    jsIncludes "[ERROR] x [SUCCESS]" "[ERROR]" = true ∧
    jsIncludes "[ERROR] x [SUCCESS]" "[SUCCESS]" = true ∧
    classifyType "[ERROR] x [SUCCESS]" = "error" :=
  ⟨rfl, rfl, (classify_priority_order "[ERROR] x [SUCCESS]").2 rfl rfl⟩

/-- C5 counterexample: the claim's pattern is `^\[(.+?)\]\s*(.*)$`, whose
group 1 cannot be empty, so the line `"[] foo"` matches it nowhere and the
claim then demands the whole line as the message; the source's pattern is
`^\[(.*?)\]\s*(.*)$`, which does match with an empty group 1, so the
formatter returns message `"foo"` — the claim is false at that line. -/
theorem formatter_claim_pattern_counterexample :
    ¬ FormatterLineClaim true "[] foo" := by
  intro h
  have hnc : ∀ g1 tail, ¬ LineCand true "[] foo".data g1 tail := by
    intro g1 tail hc
    rcases hc with ⟨heq, hmin, -, -⟩
    have hdata : "[] foo".data = '[' :: [']', ' ', 'f', 'o', 'o'] := rfl
    rw [hdata] at heq
    have h2 : [']', ' ', 'f', 'o', 'o'] = g1 ++ ']' :: tail := (List.cons.inj heq).2
    cases g1 with
    | nil => exact (hmin rfl) rfl
    | cons d g1' =>
      rw [List.cons_append] at h2
      have h3 : [' ', 'f', 'o', 'o'] = g1' ++ ']' :: tail := (List.cons.inj h2).2
      have hmem : ']' ∈ g1' ++ ']' :: tail :=
        List.mem_append_right _ (List.mem_cons_self _ _)
      rw [← h3] at hmem
      exact absurd hmem (by decide)
  have hres := h.2 hnc
  have heval : parseLine "[] foo" = ⟨"", "foo", "info"⟩ := by decide
  rw [heval] at hres
  have : "foo" = "[] foo" := congrArg LogEntry.message hres
  exact absurd this (by decide)

/-- C5 amended: with the source's pattern `^\[(.*?)\]\s*(.*)$` (group 1
may be empty), the formatter maps every line the pattern matches to the
transformed group 1 as timestamp and group 2 as message, and every line it
does not match to an empty timestamp with the whole line as message;
blank lines are dropped and entry order follows line order. -/
theorem formatter_line_extraction (logs line : String) :
    formattedLogs logs =
      ((logs.splitOn "\n").filter fun l => jsTrim l ≠ "").map parseLine ∧
    FormatterLineClaim false line := by
  refine ⟨rfl, ?_, ?_⟩
  · rintro g1 tail ⟨⟨heq, -, hterm, htc⟩, hminimal⟩
    have hscan : scanGroups false (g1 ++ ']' :: tail) ≠ none :=
      scan_complete g1 rfl (by simp) hterm htc
    rcases Option.ne_none_iff_exists'.mp hscan with ⟨⟨p1, p2⟩, hp⟩
    rcases scan_sound _ hp with ⟨tailp, heqp, -, htermp, htcp⟩
    have hle1 : p1.length ≤ g1.length :=
      scan_min _ hp g1 tail rfl (by simp) hterm htc
    have hle2 : g1.length ≤ p1.length :=
      hminimal p1 tailp ⟨by rw [heq, heqp], by simp, htermp,
        by rw [htcp]; simp⟩
    have hinj := List.append_inj heqp.symm
      (by omega : p1.length = g1.length)
    have hg : p1 = g1 := hinj.1
    have ht : tailp = tail := (List.cons.inj hinj.2).2
    have hp2 : p2 = tail.dropWhile isJsWs := by
      rw [ht] at htcp
      unfold tailCand at htcp
      by_cases hany : (tail.dropWhile isJsWs).any isLineTerm
      · rw [if_pos hany] at htcp
        exact absurd htcp (by simp)
      · rw [if_neg hany] at htcp
        exact (Option.some.inj htcp).symm
    have hred : matchLine false line =
        (scanGroups false (g1 ++ ']' :: tail)).map
          fun p => (String.mk p.1, String.mk p.2) := by
      unfold matchLine
      rw [heq]
      rfl
    unfold parseLine
    rw [hred, hp, Option.map_some', hg, hp2]
  · intro hnone
    suffices hml : matchLine false line = none by
      unfold parseLine
      rw [hml]
    cases hld : line.data with
    | nil => unfold matchLine; rw [hld]
    | cons c rest =>
      have hred : matchLine false line =
          if c = '[' then (scanGroups false rest).map
            fun p => (String.mk p.1, String.mk p.2) else none := by
        unfold matchLine
        rw [hld]
      rw [hred]
      by_cases hcb : c = '['
      · subst hcb
        rw [if_pos rfl]
        cases hsg : scanGroups false rest with
        | none => rfl
        | some p =>
          rcases scan_sound _ hsg with ⟨tailp, heqp, -, htermp, htcp⟩
          exact absurd
            (⟨by rw [hld, heqp], by simp, htermp, by rw [htcp]; simp⟩ :
                LineCand false line.data p.1 tailp)
            (hnone p.1 tailp)
      · rw [if_neg hcb]

/-- Witness for C5 amended: a line without a bracketed prefix passes the
no-match clause and comes back whole. -/
theorem formatter_line_extraction_witness :
    (∀ g1 tail, ¬ LineCand false "plain".data g1 tail) ∧
    parseLine "plain" = ⟨"", "plain", classifyType "plain"⟩ := by
  have hnc : ∀ g1 tail, ¬ LineCand false "plain".data g1 tail := by
    intro g1 tail hcand
    rcases hcand with ⟨heq, -, -, -⟩
    have hdata : "plain".data = 'p' :: ['l', 'a', 'i', 'n'] := rfl
    rw [hdata] at heq
    exact absurd (List.cons.inj heq).1 (by decide)
  exact ⟨hnc, (formatter_line_extraction "" "plain").2.2 hnc⟩

/-- Witness for C10: delete the server job `srv`, poll again with the
server still listing it, and it is back. -/
theorem delete_is_local_only_witness :
    (mkJob "srv" 7 false ∈ [mkJob "srv" 7 false]) ∧
    ∃ k ∈ (fetchJobsList (Except.ok [mkJob "srv" 7 false])
        (handleDeleteJob true "srv"
          (AppState.mk [mkJob "srv" 7 false] none true)).1).jobs,
      k.id = (mkJob "srv" 7 false).id ∧ k.is_simulation = false :=
  ⟨by decide,
    (delete_is_local_only true "srv" (AppState.mk [mkJob "srv" 7 false] none true)
      [mkJob "srv" 7 false] (mkJob "srv" 7 false)).2.2 (by decide)⟩

end Celia
